import Mathlib

/-
Verification of the codex-lens hybrid retrieval and cascade ranking engine.

This file gives a shallow embedding, in Lean 4, of the ranking and control
logic of the codex-lens search subsystem:

  - cosine-distance → score conversion
      (`hybrid_search.py` `_search_vector_centralized`,
       `chain_search.py` `dense_rerank_cascade_search`)
  - weight normalization and reciprocal-rank fusion
      (`codexlens/search/ranking.py`; the module itself is not in the
       source tree we were given, so those two functions are modelled
       from the specification, see the doc comments)
  - result merging/deduplication (`chain_search.py` `_merge_and_rank`)
  - cascade strategy dispatch (`chain_search.py` `cascade_search`)
  - binary-cascade fallback paths (`chain_search.py`
       `binary_cascade_search`, `_build_results_from_candidates`)
  - HTTP retry logic of the API reranker (`api_reranker.py`)
  - the directory-index walker (`chain_search.py` `_collect_index_paths`)

Python floats are modelled by `ℚ` where the code never produces NaN/∞, and
by the four-constructor type `FloatVal` where NaN/∞ are semantically
relevant (weight normalization).  Python dicts are modelled as
insertion-ordered association lists, matching CPython's ordered-dict
semantics that the code relies on.  Fallible operations return `Option`.
-/

namespace CodexLens

/-! ## Score conversions (C1)

`chain_search.py:1445-1462` (`dense_rerank_cascade_search`) converts a
cosine distance to a score with an explicit clamp; `hybrid_search.py:687-688`
(`_search_vector_centralized`) converts without the clamp. -/

/-- Embeds `chain_search.py:1453`: `score = max(0.0, 1.0 - distance)`. -/
def denseRerankScore (distance : ℚ) : ℚ := max 0 (1 - distance)

/-- Embeds `hybrid_search.py:688`: `scores = [1.0 - d for d in distances]`
(no clamping). -/
def centralizedVectorScores (distances : List ℚ) : List ℚ :=
  distances.map (fun d => 1 - d)

/-! ## Cascade strategy dispatch (C5, C9)

Embeds `chain_search.py:848-869` (`ChainSearchEngine.cascade_search`).
`strategy = none` models the parameter left at its `None` default;
`configStrategy = none` models both `self._config is None` and a config
object without a `cascade_strategy` attribute (`getattr` default `None`,
and `None in valid_strategies` is false). -/

def validStrategies : List String :=
  ["binary", "hybrid", "binary_rerank", "dense_rerank"]

/-- The four cascade methods the dispatcher can invoke. -/
inductive CascadeMethod where
  | binaryCascade
  | binaryRerankCascade
  | denseRerankCascade
  | hybridCascade
deriving DecidableEq, Repr

/-- Embeds the strategy-resolution block of `cascade_search`
(`chain_search.py:848-860`). -/
def effectiveStrategy (strategy configStrategy : Option String) : String :=
  let e : Option String :=
    match strategy with
    | some s => some s
    | none =>
      match configStrategy with
      | some c => if validStrategies.contains c then some c else none
      | none => none
  match e with
  | some s => if validStrategies.contains s then s else "binary"
  | none => "binary"

/-- Embeds the dispatch chain of `cascade_search` (`chain_search.py:862-869`). -/
def cascadeDispatch (strategy configStrategy : Option String) : CascadeMethod :=
  let s := effectiveStrategy strategy configStrategy
  if s = "binary" then .binaryCascade
  else if s = "binary_rerank" then .binaryRerankCascade
  else if s = "dense_rerank" then .denseRerankCascade
  else .hybridCascade

/-! ## Cascade k / coarse_k config defaults (C10)

All four cascade variants share the identical block
(`chain_search.py:339-342`, `496-499`, `931-934`, `1214-1217`):

    if hasattr(self._config, "cascade_coarse_k"):
        coarse_k = coarse_k or self._config.cascade_coarse_k
    if hasattr(self._config, "cascade_fine_k"):
        k = k or self._config.cascade_fine_k

`none` models a missing config object or a config without the attribute.
Python's `x or y` on an `int` yields `y` exactly when `x == 0`. -/

/-- Embeds `k or config_value` for an `int` argument: the config value is
substituted exactly when the argument is `0`. -/
def orDefault (arg : Int) (configVal : Option Int) : Int :=
  match configVal with
  | none => arg
  | some c => if arg = 0 then c else arg

/-- Embeds the shared config-default block of the four cascade variants:
resolves `(k, coarse_k)` against `cascade_fine_k` / `cascade_coarse_k`. -/
def cascadeEffectiveKs (k coarseK : Int) (fineK coarseKCfg : Option Int) :
    Int × Int :=
  (orDefault k fineK, orDefault coarseK coarseKCfg)

/-! ## Search results, deduplication, stable sorting, slicing (C4, C6)

`SearchResult` (from `codexlens/entities.py`) is reduced to the two fields
the merge/dedup logic reads: `path` and `score`.  Python dicts keyed by
path are modelled as insertion-ordered association lists (CPython dicts
preserve insertion order and `d[k] = v` keeps the original key position);
`list.sort(key=..., reverse=True)` is a stable descending sort, modelled
by a stable insertion sort. -/

structure SearchResult where
  path : String
  score : ℚ
deriving DecidableEq, Repr

/-- One step of the dict update in `_merge_and_rank`
(`chain_search.py:2279-2282`): replace the entry for `r.path` when `r`
scores strictly higher, keep the original position; append when absent. -/
def updateByPath : List SearchResult → SearchResult → List SearchResult
  | [], r => [r]
  | x :: xs, r =>
    if x.path = r.path then
      if x.score < r.score then r :: xs else x :: xs
    else x :: updateByPath xs r

/-- Embeds the dedup loop of `_merge_and_rank` (keep the highest-scoring
result per path, first-seen position, ties keep the earlier result). -/
def dedupByPath (rs : List SearchResult) : List SearchResult :=
  rs.foldl updateByPath []

/-- Stable insertion into a list sorted descending by the strict
comparison `lt`: `r` is placed before the first element strictly below it,
hence after any earlier element that ties with it. -/
def insertDesc (lt : α → α → Bool) (r : α) : List α → List α
  | [] => [r]
  | x :: xs => if lt x r then r :: x :: xs else x :: insertDesc lt r xs

/-- Stable descending insertion sort, modelling Python's stable
`list.sort(key=..., reverse=True)`. -/
def sortDesc (lt : α → α → Bool) : List α → List α
  | [] => []
  | x :: xs => insertDesc lt x (sortDesc lt xs)

/-- Score comparison used by `_merge_and_rank`'s sort key. -/
def scoreLt (a b : SearchResult) : Bool := a.score < b.score

/-- Python list slice `xs[offset : offset + limit]` for natural
`offset`/`limit`. -/
def pySlice (offset limit : Nat) (xs : List α) : List α :=
  (xs.drop offset).take limit

/-- Embeds `ChainSearchEngine._merge_and_rank` (`chain_search.py:2260-2289`):
deduplicate by path keeping the highest score, sort by score descending
(stable), then apply `offset` and `limit`. -/
def mergeAndRank (results : List SearchResult) (limit offset : Nat) :
    List SearchResult :=
  pySlice offset limit (sortDesc scoreLt (dedupByPath results))

/-! ## Binary cascade fallback paths (C6)

Embeds the control flow of `ChainSearchEngine.binary_cascade_search` after
stage 1 (`chain_search.py:613-646`) and
`_build_results_from_candidates` (`chain_search.py:1654-1753`).  Stage-1
candidates are `(chunk_id, hamming_distance)` pairs; chunk-metadata lookup
is an oracle `Nat → Option ChunkInfo` (a `none` models a chunk id absent
from the store, skipped at `chain_search.py:1712-1714`); the dense-rerank
branch, outside this claim, is abstracted by the `denseResults` argument. -/

structure ChunkInfo where
  path : String
  content : String
deriving DecidableEq, Repr

/-- Embeds `chain_search.py:1718`: `score = 1.0 - (distance / 256.0)`. -/
def hammingScore (dist : Nat) : ℚ := 1 - (dist : ℚ) / 256

/-- Embeds `_build_results_from_candidates`: build a result per candidate
whose chunk metadata is found, scored purely by Hamming distance, then
deduplicate by path (keep highest score) and sort descending
(`chain_search.py:1711-1743`). -/
def buildResultsFromCandidates (lookup : Nat → Option ChunkInfo)
    (cands : List (Nat × Nat)) : List SearchResult :=
  let results := cands.filterMap fun cd =>
    (lookup cd.1).map fun info => SearchResult.mk info.path (hammingScore cd.2)
  sortDesc scoreLt (dedupByPath results)

/-- Outcome of the binary cascade after stage 1: fall back to the hybrid
cascade, return Hamming-scored results, or dense-rerank the candidates. -/
inductive BinaryCascadeOutcome where
  | hybridFallback
  | hammingOnly (res : List SearchResult)
  | denseReranked (res : List SearchResult)
deriving DecidableEq, Repr

/-- Ascending stable sort of candidates by Hamming distance, embedding
`all_candidates.sort(key=lambda x: x[1])` (`chain_search.py:618`). -/
def sortByDistance (cands : List (Nat × Nat)) : List (Nat × Nat) :=
  sortDesc (fun a b => b.2 < a.2) cands

/-- Embeds `binary_cascade_search` from the stage-1 candidate check onward
(`chain_search.py:613-646`): no candidates → hybrid fallback; candidates
but no dense query embedding (`denseOk = false`) → results built from the
top-`k` coarse candidates scored by Hamming distance alone; otherwise the
dense rerank proceeds. -/
def binaryCascadeStage2 (allCandidates : List (Nat × Nat)) (coarseK k : Nat)
    (denseOk : Bool) (lookup : Nat → Option ChunkInfo)
    (denseResults : List SearchResult) : BinaryCascadeOutcome :=
  if allCandidates.isEmpty then .hybridFallback
  else
    let coarse := (sortByDistance allCandidates).take coarseK
    if denseOk then .denseReranked denseResults
    else .hammingOnly (buildResultsFromCandidates lookup (coarse.take k))

/-! ## API reranker retry logic (C7)

Embeds `api_reranker.py` `_should_retry_status` (lines 180-182),
`_parse_retry_after_seconds` / `_sleep_backoff` (lines 161-178) and the
status-handling loop of `_request_json` (lines 184-252).  The loop is
modelled over an oracle `resp : Nat → Nat` giving the HTTP status of each
attempt and `body : Nat → String` giving the (already stripped) response
text of each attempt; the network-exception branch (lines 190-198) is
outside the claim, so every attempt is assumed to yield a response.
The `random.uniform` jitter is a parameter. -/

/-- Embeds `_should_retry_status`: retry on 429 and on any 5xx. -/
def shouldRetryStatus (status : Nat) : Bool :=
  status == 429 || (500 ≤ status && status ≤ 599)

/-- Embeds the body-preview truncation of `_request_json` (lines 202-208):
bodies longer than 300 characters are cut to 300 and an ellipsis appended. -/
def truncateBody (s : String) : String :=
  if s.length > 300 then s.take 300 ++ "…" else s

/-- Embeds `_sleep_backoff`: a positive numeric `Retry-After` is honored
(capped at `backoffMax`); otherwise exponential backoff
`base * 2^attempt` plus jitter, capped at `backoffMax`. -/
def sleepBackoff (backoffBase backoffMax : ℚ) (attempt : Nat) (jitter : ℚ)
    (retryAfter : Option ℚ) : ℚ :=
  match retryAfter with
  | some r =>
    if 0 < r then min r backoffMax
    else min backoffMax (backoffBase * 2 ^ attempt + jitter)
  | none => min backoffMax (backoffBase * 2 ^ attempt + jitter)

/-- Embeds the `max_retries` coercion in `APIReranker.__init__` (line 122):
`int(max_retries) if max_retries and int(max_retries) >= 0 else 3`.
`none` models the defaulted argument. -/
def resolveMaxRetries (arg : Option Int) : Int :=
  match arg with
  | none => 3
  | some v => if v ≠ 0 ∧ 0 ≤ v then v else 3

/-- Outcome of `_request_json`: a 2xx/3xx response parsed at some attempt,
an immediate 401/403 error, a non-retryable (or retry-exhausted) HTTP error
carrying the truncated body, or the post-loop `raise` at line 250. -/
inductive RequestOutcome where
  | ok (attempt : Nat)
  | authError (status : Nat)
  | httpError (status : Nat) (body : String)
  | exhausted
deriving DecidableEq, Repr

/-- One pass of the `for attempt in range(max_retries + 1)` loop of
`_request_json`, with `fuel` counting the remaining loop iterations. -/
def requestGo (maxRetries : Nat) (resp : Nat → Nat) (body : Nat → String) :
    Nat → Nat → RequestOutcome
  | 0, _ => .exhausted
  | fuel + 1, attempt =>
    let status := resp attempt
    if 400 ≤ status then
      if shouldRetryStatus status ∧ attempt < maxRetries then
        requestGo maxRetries resp body fuel (attempt + 1)
      else if status = 401 ∨ status = 403 then .authError status
      else .httpError status (truncateBody (body attempt))
    else .ok attempt

/-- Embeds `_request_json`: the loop runs at most `maxRetries + 1` attempts. -/
def requestJson (maxRetries : Nat) (resp : Nat → Nat) (body : Nat → String) :
    RequestOutcome :=
  requestGo maxRetries resp body (maxRetries + 1) 0

/-! ## Directory-index walker (C8)

Embeds `ChainSearchEngine._collect_index_paths` (`chain_search.py:2013-2059`).
Index paths are abstracted to `Nat`; `resolve` models `Path.resolve()`
(symlink canonicalization), `existsIdx` models `Path.exists()`, and
`subdirs` models the per-index `subdirs` table read through `DirIndexStore`
(an index whose store fails to open contributes no subdirectories, like the
`except` at `chain_search.py:2054-2055`).  The Python recursion terminates
because the visited set grows on every call; the embedding bounds the
recursion depth by an explicit `fuel`, and every theorem holds for all
fuel values. -/

structure IndexTree where
  resolve : Nat → Nat
  existsIdx : Nat → Bool
  subdirs : Nat → List Nat

/-- Walker state: the `visited` set of resolved paths and the `collected`
output list. -/
structure WalkState where
  visited : List Nat
  collected : List Nat
deriving DecidableEq, Repr

/-- Embeds `_collect_recursive` (`chain_search.py:2030-2055`): skip visited
resolved paths, collect existing indexes, stop at the depth limit
(`depth >= 0 and current_depth >= depth`), otherwise recurse into the
subdirectory links in order. -/
def collectGo (t : IndexTree) (depth : Int) :
    Nat → Nat → Nat → WalkState → WalkState
  | 0, _, _, st => st
  | fuel + 1, p, cd, st =>
    if t.resolve p ∈ st.visited then st
    else
      if t.existsIdx (t.resolve p) then
        if 0 ≤ depth ∧ depth ≤ (cd : Int) then
          ⟨t.resolve p :: st.visited, st.collected ++ [t.resolve p]⟩
        else
          (t.subdirs (t.resolve p)).foldl
            (fun s q => collectGo t depth fuel q (cd + 1) s)
            ⟨t.resolve p :: st.visited, st.collected ++ [t.resolve p]⟩
      else ⟨t.resolve p :: st.visited, st.collected⟩

/-- Embeds `_collect_index_paths`: run the recursion from the start index at
depth 0 with empty state and return the collected list. -/
def collectIndexPaths (t : IndexTree) (start : Nat) (depth : Int)
    (fuel : Nat) : List Nat :=
  (collectGo t depth fuel start 0 ⟨[], []⟩).collected

/-- The same walker with the depth-limit check removed: the unbounded
traversal that `depth = -1` is claimed to perform. -/
def collectGoU (t : IndexTree) : Nat → Nat → WalkState → WalkState
  | 0, _, st => st
  | fuel + 1, p, st =>
    if t.resolve p ∈ st.visited then st
    else
      if t.existsIdx (t.resolve p) then
        (t.subdirs (t.resolve p)).foldl (fun s q => collectGoU t fuel q s)
          ⟨t.resolve p :: st.visited, st.collected ++ [t.resolve p]⟩
      else ⟨t.resolve p :: st.visited, st.collected⟩

/-- `withinDepth t d p q`: the resolved index `q` is reachable from `p` by
at most `d` subdirectory-link edges. -/
def withinDepth (t : IndexTree) : Nat → Nat → Nat → Prop
  | 0, p, q => t.resolve p = q
  | d + 1, p, q => t.resolve p = q ∨
      ∃ s ∈ t.subdirs (t.resolve p), withinDepth t d s q

/-! ## Weight normalization and reciprocal-rank fusion (C2, C3)

The fusion kernel lives in `codexlens/search/ranking.py`, which is not
among the source files provided (only its tests,
`tests/test_rrf_fusion.py`, and its callers in `hybrid_search.py` are), so
`normalize_weights` and `reciprocal_rank_fusion` are modelled from the
specification (§4.2).  Floats here must distinguish NaN and ±∞, so weight
values use the four-constructor `FloatVal`; IEEE addition, division and
comparison are given on it (NaN propagates, NaN comparisons are false).
Results are identified by path; the representative-selection and metadata
bookkeeping of the spec are not needed by these claims and are not
modelled.  The accumulator dict is modelled as an ordered key list plus a
total score function defaulting to `0.0` (`fused.get(path, 0.0)`). -/

inductive FloatVal where
  | nan
  | inf
  | ninf
  | val (q : ℚ)
deriving DecidableEq, Repr

/-- IEEE-style addition on `FloatVal`: NaN propagates; `∞ + (−∞)` is NaN. -/
def addF : FloatVal → FloatVal → FloatVal
  | .nan, _ => .nan
  | _, .nan => .nan
  | .inf, .ninf => .nan
  | .ninf, .inf => .nan
  | .inf, _ => .inf
  | _, .inf => .inf
  | .ninf, _ => .ninf
  | _, .ninf => .ninf
  | .val a, .val b => .val (a + b)

/-- IEEE-style division on `FloatVal`.  The normalization guard ensures the
divisor is a finite positive value, so the remaining branches (division by
zero, by ±∞, of ±∞ by ±∞) are unreachable there and any total choice is
admissible; NaN is used for them. -/
def divF : FloatVal → FloatVal → FloatVal
  | .nan, _ => .nan
  | _, .nan => .nan
  | .inf, .inf => .nan
  | .inf, .ninf => .nan
  | .ninf, .inf => .nan
  | .ninf, .ninf => .nan
  | .inf, .val t => if t < 0 then .ninf else .inf
  | .ninf, .val t => if t < 0 then .inf else .ninf
  | .val _, .inf => .val 0
  | .val _, .ninf => .val 0
  | .val a, .val t => if t = 0 then .nan else .val (a / t)

/-- `math.isfinite`. -/
def isFiniteF : FloatVal → Bool
  | .val _ => true
  | _ => false

/-- Python `total > 0` (false for NaN, true for `+∞`). -/
def gtZeroF : FloatVal → Bool
  | .val q => q > 0
  | .inf => true
  | _ => false

/-- The rational carried by a finite `FloatVal` (0 otherwise). -/
def ratOf : FloatVal → ℚ
  | .val q => q
  | _ => 0

/-- Modelled from the spec: `normalize_weights` computes the total of the
mapping; if the total is not finite or not strictly positive it returns the
input mapping unchanged (no division is performed); otherwise it divides
each weight by the total. -/
def totalWeight (ws : List (String × FloatVal)) : FloatVal :=
  ws.foldl (fun acc p => addF acc p.2) (.val 0)

/-- Modelled from the spec: the guarded normalization step of
`normalize_weights` in `codexlens/search/ranking.py` (spec §4.2). -/
def normalizeWeights (ws : List (String × FloatVal)) :
    List (String × FloatVal) :=
  if isFiniteF (totalWeight ws) && gtZeroF (totalWeight ws) then
    ws.map fun p => (p.1, divF p.2 (totalWeight ws))
  else ws

/-- Accumulator dict of the RRF loop: insertion-ordered keys plus a total
score function (absent keys score `0.0`, as in `fused.get(path, 0.0)`). -/
structure RRFAcc where
  keys : List String
  score : String → FloatVal

/-- The empty accumulator. -/
def emptyAcc : RRFAcc := ⟨[], fun _ => .val 0⟩

/-- `fused[path] = fused.get(path, 0.0) + c`: add a contribution for one
path, appending the key on first touch. -/
def addContribution (acc : RRFAcc) (p : String) (c : FloatVal) : RRFAcc :=
  ⟨if p ∈ acc.keys then acc.keys else acc.keys ++ [p],
   fun q => if q = p then addF (acc.score q) c else acc.score q⟩

/-- First-occurrence-wins deduplication of a source's ranked paths
(spec §4.2: within a single source, the first occurrence of a path wins). -/
def dedupFirst (seen : List String) : List String → List String
  | [] => []
  | p :: ps => if p ∈ seen then dedupFirst seen ps
               else p :: dedupFirst (p :: seen) ps

/-- Deduplicate keeping first occurrences. -/
def dedupKeepFirst (paths : List String) : List String := dedupFirst [] paths

/-- Modelled from the spec: the per-source accumulation loop of
`reciprocal_rank_fusion` — each path at 1-based rank `r` contributes
`w / (k + r)` to its accumulator entry. -/
def accumulateRanked (w : FloatVal) (k : ℚ) :
    RRFAcc → Nat → List String → RRFAcc
  | acc, _, [] => acc
  | acc, r, p :: ps =>
    accumulateRanked w k
      (addContribution acc p (divF w (.val (k + (r : ℚ))))) (r + 1) ps

/-- Accumulate one source: deduplicate its paths, then rank from 1. -/
def accumulateSource (acc : RRFAcc) (w : FloatVal) (k : ℚ)
    (paths : List String) : RRFAcc :=
  accumulateRanked w k acc 1 (dedupKeepFirst paths)

/-- Weight of a source in the weights mapping (default 1.0 when absent). -/
def lookupWeight (ws : List (String × FloatVal)) (s : String) : FloatVal :=
  match ws.find? (fun p => p.1 == s) with
  | some p => p.2
  | none => .val 1

/-- Modelled from the spec: the accumulation over all sources.  A source
with weight 0 contributes no scores and is effectively ignored
(spec §3 invariants). -/
def rrfRawScores (rm : List (String × List String))
    (ws : List (String × FloatVal)) (k : ℚ) : RRFAcc :=
  rm.foldl (fun acc sp =>
    if lookupWeight ws sp.1 = .val 0 then acc
    else accumulateSource acc (lookupWeight ws sp.1) k sp.2) emptyAcc

/-- IEEE-style strict comparison on `FloatVal` (NaN comparisons false). -/
def fltF : FloatVal → FloatVal → Bool
  | .nan, _ => false
  | _, .nan => false
  | .ninf, .ninf => false
  | .ninf, _ => true
  | _, .ninf => false
  | .inf, _ => false
  | _, .inf => true
  | .val a, .val b => a < b

/-- RRF with the given weights used verbatim: accumulate, then emit the
`(path, score)` pairs sorted by accumulated score descending (stable). -/
def rrfWithWeights (rm : List (String × List String))
    (ws : List (String × FloatVal)) (k : ℚ) : List (String × FloatVal) :=
  sortDesc (fun a b => fltF a.2 b.2)
    ((rrfRawScores rm ws k).keys.map fun p => (p, (rrfRawScores rm ws k).score p))

/-- Modelled from the spec: `reciprocal_rank_fusion` normalizes the weights
and then accumulates with them. -/
def reciprocalRankFusion (rm : List (String × List String))
    (ws : List (String × FloatVal)) (k : ℚ) : List (String × FloatVal) :=
  rrfWithWeights rm (normalizeWeights ws) k

/-- Rational weights lifted into float weights. -/
def toFloatWeights (wq : List (String × ℚ)) : List (String × FloatVal) :=
  wq.map fun p => (p.1, .val p.2)

/-- Rational weight lookup (default 1.0), the claim-side mirror of
`lookupWeight`. -/
def lookupRat (wq : List (String × ℚ)) (s : String) : ℚ :=
  match wq.find? (fun p => p.1 == s) with
  | some p => p.2
  | none => 1

/-- 1-based position of `p` in a list, starting the count at `r`. -/
def rankFrom : List String → String → Nat → Option Nat
  | [], _, _ => none
  | q :: qs, p, r => if q = p then some r else rankFrom qs p (r + 1)

/-- The 1-based rank of `p` within a source's deduplicated ranked paths. -/
def rankOf (paths : List String) (p : String) : Option Nat :=
  rankFrom (dedupKeepFirst paths) p 1

/-- The claim-side closed form: the contribution `w_s / (k + r)` of one
source to path `p` (0 when `p` is absent from the source). -/
def rrfContribution (wq : List (String × ℚ)) (k : ℚ) (p : String)
    (sp : String × List String) : ℚ :=
  match rankOf sp.2 p with
  | some r => lookupRat wq sp.1 / (k + (r : ℚ))
  | none => 0

end CodexLens

namespace CodexLens

/-! ## Theorems for C1, C5, C9, C10 -/

/-- C5. Strategy precedence in `cascade_search`: an explicit valid `strategy`
argument wins over any config value; with no explicit argument a valid config
`cascade_strategy` is used; with neither, the default is `"binary"`.  Each
strategy string dispatches to its cascade method. -/
theorem cascade_strategy_precedence :
    (∀ cfg : Option String,
      cascadeDispatch (some "binary") cfg = .binaryCascade ∧
      cascadeDispatch (some "binary_rerank") cfg = .binaryRerankCascade ∧
      cascadeDispatch (some "dense_rerank") cfg = .denseRerankCascade ∧
      cascadeDispatch (some "hybrid") cfg = .hybridCascade) ∧
    (cascadeDispatch none (some "binary") = .binaryCascade ∧
      cascadeDispatch none (some "binary_rerank") = .binaryRerankCascade ∧
      cascadeDispatch none (some "dense_rerank") = .denseRerankCascade ∧
      cascadeDispatch none (some "hybrid") = .hybridCascade) ∧
    cascadeDispatch none none = .binaryCascade := by
  refine ⟨fun cfg => ?_, by decide, by decide⟩
  refine ⟨?_, ?_, ?_, ?_⟩ <;> rfl

/-- C9. An explicit strategy argument outside the valid set is not an error:
the dispatcher ignores the config `cascade_strategy` entirely (the non-`None`
argument prevents the config fallback from being consulted) and silently
dispatches the `"binary"` strategy. -/
theorem cascade_invalid_strategy_dispatches_binary
    (s : String) (cfg : Option String)
    (h : ¬ s ∈ validStrategies) :
    cascadeDispatch (some s) cfg = .binaryCascade := by
  have hc : validStrategies.contains s = false := by
    simpa using h
  simp [cascadeDispatch, effectiveStrategy, hc, h]

/-- Witness for C9: the invalid strategy string `"bogus"` dispatches the
binary cascade even when the config requests `"hybrid"`. -/
theorem cascade_invalid_strategy_dispatches_binary_witness :
    cascadeDispatch (some "bogus") (some "hybrid") = .binaryCascade :=
  cascade_invalid_strategy_dispatches_binary "bogus" (some "hybrid") (by decide)

/-- C10. In every cascade variant (the four share the identical config-default
block), a zero `k` or `coarse_k` argument is replaced by the config's
`cascade_fine_k` / `cascade_coarse_k` value when that attribute is present,
and a non-zero argument is kept verbatim. -/
theorem cascade_zero_k_uses_config_default
    (fineK coarseKCfg : Int) (k coarseK : Int)
    (hk : k ≠ 0) (hck : coarseK ≠ 0) :
    cascadeEffectiveKs 0 0 (some fineK) (some coarseKCfg) = (fineK, coarseKCfg) ∧
    cascadeEffectiveKs k coarseK (some fineK) (some coarseKCfg) = (k, coarseK) ∧
    cascadeEffectiveKs 0 0 none none = (0, 0) := by
  refine ⟨rfl, ?_, rfl⟩
  simp [cascadeEffectiveKs, orDefault, hk, hck]

/-- Witness for C10: requesting `k = 0, coarse_k = 0` against a config with
`cascade_fine_k = 10` and `cascade_coarse_k = 100` yields `(10, 100)`, while
`k = 5, coarse_k = 50` is kept. -/
theorem cascade_zero_k_uses_config_default_witness :
    cascadeEffectiveKs 0 0 (some 10) (some 100) = (10, 100) ∧
    cascadeEffectiveKs 5 50 (some 10) (some 100) = (5, 50) ∧
    cascadeEffectiveKs 0 0 none none = (0, 0) :=
  ⟨(cascade_zero_k_uses_config_default 10 100 5 50 (by decide) (by decide)).1,
   (cascade_zero_k_uses_config_default 10 100 5 50 (by decide) (by decide)).2.1,
   (cascade_zero_k_uses_config_default 10 100 5 50 (by decide) (by decide)).2.2⟩

/-! ### Helper lemmas: stable sorting -/

/-- Membership in a stable descending insertion. -/
theorem mem_insertDesc {lt : α → α → Bool} {r a : α} {l : List α} :
    a ∈ insertDesc lt r l ↔ a = r ∨ a ∈ l := by
  induction l with
  | nil => simp [insertDesc]
  | cons x xs ih =>
    by_cases h : lt x r
    · simp [insertDesc, h]
    · simp [insertDesc, h, ih]
      tauto

/-- Insertion permutes to consing. -/
theorem insertDesc_perm (lt : α → α → Bool) (r : α) (l : List α) :
    List.Perm (insertDesc lt r l) (r :: l) := by
  induction l with
  | nil => simp [insertDesc]
  | cons x xs ih =>
    by_cases h : lt x r
    · simp [insertDesc, h]
    · simp only [insertDesc, h, if_neg, Bool.false_eq_true, not_false_iff]
      exact (ih.cons x).trans (List.Perm.swap r x xs)

/-- The stable descending sort is a permutation of its input. -/
theorem sortDesc_perm (lt : α → α → Bool) (l : List α) :
    List.Perm (sortDesc lt l) l := by
  induction l with
  | nil => simp [sortDesc]
  | cons x xs ih =>
    exact (insertDesc_perm lt x (sortDesc lt xs)).trans (ih.cons x)

/-- Membership in the stable descending sort. -/
theorem mem_sortDesc {lt : α → α → Bool} {a : α} {l : List α} :
    a ∈ sortDesc lt l ↔ a ∈ l :=
  (sortDesc_perm lt l).mem_iff

/-- Inserting preserves pairwise-sortedness for any relation `R` compatible
with the comparison. -/
theorem pairwise_insertDesc {lt : α → α → Bool} {R : α → α → Prop}
    (hR1 : ∀ a b, lt a b = false → R a b)
    (hR2 : ∀ a b, lt b a = true → R a b)
    (htrans : ∀ a b c, R a b → R b c → R a c)
    {l : List α} (hl : l.Pairwise R) (r : α) :
    (insertDesc lt r l).Pairwise R := by
  induction l with
  | nil => simp [insertDesc]
  | cons x xs ih =>
    rcases List.pairwise_cons.mp hl with ⟨hx, hxs⟩
    by_cases h : lt x r
    · simp only [insertDesc, h, if_pos]
      refine List.pairwise_cons.mpr ⟨?_, hl⟩
      intro y hy
      rcases List.mem_cons.mp hy with rfl | hy
      · exact hR2 _ _ h
      · exact htrans _ _ _ (hR2 _ _ h) (hx y hy)
    · simp only [insertDesc, h, if_neg, Bool.false_eq_true, not_false_iff]
      refine List.pairwise_cons.mpr ⟨?_, ih hxs⟩
      intro y hy
      rcases mem_insertDesc.mp hy with rfl | hy
      · exact hR1 _ _ (by simpa using h)
      · exact hx y hy

/-- The stable descending sort is pairwise-sorted for any relation `R`
compatible with the comparison. -/
theorem pairwise_sortDesc {lt : α → α → Bool} {R : α → α → Prop}
    (hR1 : ∀ a b, lt a b = false → R a b)
    (hR2 : ∀ a b, lt b a = true → R a b)
    (htrans : ∀ a b c, R a b → R b c → R a c)
    (l : List α) :
    (sortDesc lt l).Pairwise R := by
  induction l with
  | nil => simp [sortDesc]
  | cons x xs ih => exact pairwise_insertDesc hR1 hR2 htrans ih x

/-- Inserting an element strictly above a whole list just conses it. -/
theorem insertDesc_eq_cons {lt : α → α → Bool} {r : α} {l : List α}
    (h : ∀ x ∈ l, lt x r = true) : insertDesc lt r l = r :: l := by
  cases l with
  | nil => rfl
  | cons x xs => simp [insertDesc, h x (List.mem_cons_self x xs)]

/-- A list already strictly descending is a fixed point of the sort. -/
theorem sortDesc_eq_self {lt : α → α → Bool} {l : List α}
    (h : l.Pairwise fun a b => lt b a = true) : sortDesc lt l = l := by
  induction l with
  | nil => rfl
  | cons x xs ih =>
    rcases List.pairwise_cons.mp h with ⟨hx, hxs⟩
    rw [sortDesc, ih hxs]
    exact insertDesc_eq_cons hx

/-! ### Helper lemmas: deduplication by path -/

/-- Paths of a result list. -/
def pathsOf (rs : List SearchResult) : List String := rs.map SearchResult.path

/-- Paths after a dict update: unchanged when the path is present, appended
otherwise. -/
theorem pathsOf_updateByPath (acc : List SearchResult) (r : SearchResult) :
    pathsOf (updateByPath acc r) =
      if r.path ∈ pathsOf acc then pathsOf acc else pathsOf acc ++ [r.path] := by
  induction acc with
  | nil => simp [updateByPath, pathsOf]
  | cons x xs ih =>
    by_cases h : x.path = r.path
    · have hmem : r.path ∈ pathsOf (x :: xs) :=
        show r.path ∈ x.path :: pathsOf xs from List.mem_cons.mpr (Or.inl h.symm)
      rw [if_pos hmem]
      by_cases h2 : x.score < r.score
      · show pathsOf (if x.path = r.path then
          if x.score < r.score then r :: xs else x :: xs
          else x :: updateByPath xs r) = pathsOf (x :: xs)
        rw [if_pos h, if_pos h2]
        show r.path :: pathsOf xs = x.path :: pathsOf xs
        rw [h]
      · show pathsOf (if x.path = r.path then
          if x.score < r.score then r :: xs else x :: xs
          else x :: updateByPath xs r) = pathsOf (x :: xs)
        rw [if_pos h, if_neg h2]
    · have hiff : r.path ∈ pathsOf (x :: xs) ↔ r.path ∈ pathsOf xs := by
        constructor
        · intro hc
          rcases List.mem_cons.mp hc with he | hc
          · exact absurd he.symm h
          · exact hc
        · intro hc
          exact List.mem_cons_of_mem _ hc
      show pathsOf (if x.path = r.path then
        if x.score < r.score then r :: xs else x :: xs
        else x :: updateByPath xs r) = _
      rw [if_neg h]
      show x.path :: pathsOf (updateByPath xs r) = _
      rw [ih]
      by_cases hm : r.path ∈ pathsOf xs
      · rw [if_pos hm, if_pos (hiff.mpr hm)]
        rfl
      · rw [if_neg hm, if_neg (fun hc => hm (hiff.mp hc))]
        rfl

/-- Every entry after a dict update is an old entry or the new result. -/
theorem mem_updateByPath {acc : List SearchResult} {r y : SearchResult}
    (hy : y ∈ updateByPath acc r) : y ∈ acc ∨ y = r := by
  induction acc with
  | nil => simpa [updateByPath] using hy
  | cons x xs ih =>
    rw [updateByPath] at hy
    by_cases h : x.path = r.path
    · rw [if_pos h] at hy
      by_cases h2 : x.score < r.score
      · rw [if_pos h2] at hy
        rcases List.mem_cons.mp hy with rfl | hy
        · exact Or.inr rfl
        · exact Or.inl (List.mem_cons_of_mem _ hy)
      · rw [if_neg h2] at hy
        exact Or.inl hy
    · rw [if_neg h] at hy
      rcases List.mem_cons.mp hy with rfl | hy
      · exact Or.inl (List.mem_cons_self _ _)
      · rcases ih hy with h' | h'
        · exact Or.inl (List.mem_cons_of_mem _ h')
        · exact Or.inr h'

/-- After updating with `r`, the (unique) entry at `r.path` scores at least
`r.score`. -/
theorem updateByPath_dominates {acc : List SearchResult} {r : SearchResult}
    (hnd : (pathsOf acc).Nodup) :
    ∀ y ∈ updateByPath acc r, y.path = r.path → r.score ≤ y.score := by
  induction acc with
  | nil =>
    intro y hy _
    have : y = r := by simpa [updateByPath] using hy
    simp [this]
  | cons x xs ih =>
    have hx : x.path ∉ pathsOf xs :=
      (List.nodup_cons.mp (show (x.path :: pathsOf xs).Nodup from hnd)).1
    have hxs : (pathsOf xs).Nodup :=
      (List.nodup_cons.mp (show (x.path :: pathsOf xs).Nodup from hnd)).2
    intro y hy hyp
    rw [updateByPath] at hy
    by_cases h : x.path = r.path
    · have hxnotin : ∀ z ∈ xs, z.path ≠ r.path := by
        intro z hz he
        exact hx (by rw [h, ← he]; exact List.mem_map_of_mem _ hz)
      rw [if_pos h] at hy
      by_cases h2 : x.score < r.score
      · rw [if_pos h2] at hy
        rcases List.mem_cons.mp hy with rfl | hy
        · exact le_refl _
        · exact absurd hyp (hxnotin y hy)
      · rw [if_neg h2] at hy
        rcases List.mem_cons.mp hy with rfl | hy
        · rw [← h] at hyp
          exact le_of_not_lt h2
        · exact absurd hyp (hxnotin y hy)
    · rw [if_neg h] at hy
      rcases List.mem_cons.mp hy with rfl | hy
      · exact absurd hyp h
      · exact ih hxs y hy hyp

/-- After updating with `r`, each entry is an untouched old entry or is `r`
itself, and in the latter case `r` dominates every old entry at its path. -/
theorem updateByPath_cases {acc : List SearchResult} {r : SearchResult}
    (hnd : (pathsOf acc).Nodup) :
    ∀ y ∈ updateByPath acc r,
      y ∈ acc ∨ (y = r ∧ ∀ x ∈ acc, x.path = r.path → x.score ≤ r.score) := by
  induction acc with
  | nil =>
    intro y hy
    have : y = r := by simpa [updateByPath] using hy
    exact Or.inr ⟨this, by simp⟩
  | cons x xs ih =>
    have hx : x.path ∉ pathsOf xs :=
      (List.nodup_cons.mp (show (x.path :: pathsOf xs).Nodup from hnd)).1
    have hxs : (pathsOf xs).Nodup :=
      (List.nodup_cons.mp (show (x.path :: pathsOf xs).Nodup from hnd)).2
    intro y hy
    rw [updateByPath] at hy
    by_cases h : x.path = r.path
    · have hxnotin : ∀ z ∈ xs, z.path ≠ r.path := by
        intro z hz he
        exact hx (by rw [h, ← he]; exact List.mem_map_of_mem _ hz)
      rw [if_pos h] at hy
      by_cases h2 : x.score < r.score
      · rw [if_pos h2] at hy
        rcases List.mem_cons.mp hy with rfl | hy
        · refine Or.inr ⟨rfl, ?_⟩
          intro z hz hzp
          rcases List.mem_cons.mp hz with rfl | hz
          · exact le_of_lt h2
          · exact absurd hzp (hxnotin z hz)
        · exact Or.inl (List.mem_cons_of_mem _ hy)
      · rw [if_neg h2] at hy
        exact Or.inl hy
    · rw [if_neg h] at hy
      rcases List.mem_cons.mp hy with rfl | hy
      · exact Or.inl (List.mem_cons_self _ _)
      · rcases ih hxs y hy with h' | ⟨rfl, hdom⟩
        · exact Or.inl (List.mem_cons_of_mem _ h')
        · refine Or.inr ⟨rfl, ?_⟩
          intro z hz hzp
          rcases List.mem_cons.mp hz with rfl | hz
          · exact absurd hzp h
          · exact hdom z hz hzp

/-- Invariant of the dedup fold: paths are unique, every kept entry comes
from the processed prefix and dominates every same-path processed result,
and every processed path is represented. -/
structure DedupInv (pre acc : List SearchResult) : Prop where
  nodup : (pathsOf acc).Nodup
  mem : ∀ y ∈ acc, y ∈ pre
  dom : ∀ y ∈ acc, ∀ z ∈ pre, z.path = y.path → z.score ≤ y.score
  cover : ∀ z ∈ pre, z.path ∈ pathsOf acc

/-- The dict update preserves the dedup invariant. -/
theorem dedupInv_step {pre acc : List SearchResult} {r : SearchResult}
    (h : DedupInv pre acc) : DedupInv (pre ++ [r]) (updateByPath acc r) := by
  refine ⟨?_, ?_, ?_, ?_⟩
  · rw [pathsOf_updateByPath]
    by_cases hm : r.path ∈ pathsOf acc
    · simpa [hm] using h.nodup
    · simp only [hm, if_neg, not_false_iff]
      simp [List.nodup_append, h.nodup, hm]
  · intro y hy
    rcases mem_updateByPath hy with h' | rfl
    · exact List.mem_append_left _ (h.mem y h')
    · exact List.mem_append_right _ (List.mem_singleton_self _)
  · intro y hy z hz hzp
    rcases updateByPath_cases h.nodup y hy with hyacc | ⟨heq, hdom⟩
    · rcases List.mem_append.mp hz with hz | hz
      · exact h.dom y hyacc z hz hzp
      · have hzr : z = r := List.mem_singleton.mp hz
        have hry : r.path = y.path := by rw [← hzr]; exact hzp
        have hd := updateByPath_dominates h.nodup y hy hry.symm
        rw [hzr]
        exact hd
    · rcases List.mem_append.mp hz with hz | hz
      · rcases List.mem_map.mp (h.cover z hz) with ⟨x, hxacc, hxp⟩
        have hyr : y.path = r.path := by rw [heq]
        have h1 : z.score ≤ x.score := h.dom x hxacc z hz hxp.symm
        have h2 : x.score ≤ r.score := hdom x hxacc (hxp.trans (hzp.trans hyr))
        rw [heq]
        exact le_trans h1 h2
      · have hzr : z = r := List.mem_singleton.mp hz
        rw [hzr, heq]
  · intro z hz
    rcases List.mem_append.mp hz with hz | hz
    · have := h.cover z hz
      rw [pathsOf_updateByPath]
      by_cases hm : r.path ∈ pathsOf acc
      · rw [if_pos hm]
        exact this
      · rw [if_neg hm]
        exact List.mem_append_left _ this
    · have hzr : z = r := List.mem_singleton.mp hz
      rw [hzr, pathsOf_updateByPath]
      by_cases hm : r.path ∈ pathsOf acc
      · rw [if_pos hm]
        exact hm
      · rw [if_neg hm]
        exact List.mem_append_right _ (List.mem_singleton_self _)

/-- The dedup fold preserves the invariant along any suffix. -/
theorem dedupInv_foldl :
    ∀ (rs pre acc : List SearchResult), DedupInv pre acc →
      DedupInv (pre ++ rs) (rs.foldl updateByPath acc) := by
  intro rs
  induction rs with
  | nil => intro pre acc h; simpa using h
  | cons r rs ih =>
    intro pre acc h
    have h1 := ih (pre ++ [r]) (updateByPath acc r) (dedupInv_step h)
    simpa [List.append_assoc] using h1

/-- The dedup pass of `_merge_and_rank` satisfies the invariant against the
full input. -/
theorem dedupByPath_inv (rs : List SearchResult) : DedupInv rs (dedupByPath rs) := by
  have h0 : DedupInv [] [] := ⟨by simp [pathsOf], by simp, by simp, by simp⟩
  simpa [dedupByPath] using dedupInv_foldl rs [] [] h0

/-- C4. `_merge_and_rank` returns at most `limit` results, with pairwise
distinct paths, sorted by score descending, and every returned result is an
input result whose score is maximal among the inputs sharing its path. -/
theorem merge_and_rank_spec (results : List SearchResult) (limit offset : Nat) :
    (mergeAndRank results limit offset).length ≤ limit ∧
    (pathsOf (mergeAndRank results limit offset)).Nodup ∧
    (mergeAndRank results limit offset).Pairwise
      (fun a b => b.score ≤ a.score) ∧
    ∀ r ∈ mergeAndRank results limit offset,
      r ∈ results ∧ ∀ q ∈ results, q.path = r.path → q.score ≤ r.score := by
  have hinv := dedupByPath_inv results
  have hsub : List.Sublist (mergeAndRank results limit offset)
      (sortDesc scoreLt (dedupByPath results)) := by
    unfold mergeAndRank pySlice
    exact (List.take_sublist _ _).trans (List.drop_sublist _ _)
  have hperm := sortDesc_perm scoreLt (dedupByPath results)
  refine ⟨?_, ?_, ?_, ?_⟩
  · unfold mergeAndRank pySlice
    exact List.length_take_le _ _
  · have h1 : (pathsOf (sortDesc scoreLt (dedupByPath results))).Nodup :=
      ((hperm.map SearchResult.path).nodup_iff).mpr hinv.nodup
    exact h1.sublist (hsub.map SearchResult.path)
  · have h2 : (sortDesc scoreLt (dedupByPath results)).Pairwise
        (fun a b => b.score ≤ a.score) := by
      refine pairwise_sortDesc ?_ ?_ ?_ _
      · intro a b hf
        exact le_of_not_lt (of_decide_eq_false hf)
      · intro a b ht
        exact le_of_lt (of_decide_eq_true ht)
      · intro a b c hab hbc
        exact le_trans hbc hab
    exact h2.sublist hsub
  · intro r hr
    have hr1 : r ∈ dedupByPath results := hperm.mem_iff.mp (hsub.subset hr)
    exact ⟨hinv.mem r hr1, fun q hq hqp => hinv.dom r hr1 q hq hqp⟩

/-- C6. Binary cascade fallbacks: with no stage-1 binary candidates the
engine falls back to the hybrid cascade; with candidates but no dense query
embedding it returns results scored purely by Hamming distance, and every
such result's score is `1 - distance/256` for one of the candidates.  The
embedding is a total function: neither fallback path raises. -/
theorem binary_cascade_fallback_paths
    (coarseK k : Nat) (lookup : Nat → Option ChunkInfo)
    (denseResults : List SearchResult) :
    (∀ denseOk, binaryCascadeStage2 [] coarseK k denseOk lookup denseResults =
      .hybridFallback) ∧
    (∀ cands, cands ≠ [] →
      binaryCascadeStage2 cands coarseK k false lookup denseResults =
        .hammingOnly (buildResultsFromCandidates lookup
          (((sortByDistance cands).take coarseK).take k))) ∧
    (∀ cands r, r ∈ buildResultsFromCandidates lookup cands →
      ∃ cd ∈ cands, (∃ info, lookup cd.1 = some info ∧ r.path = info.path) ∧
        r.score = 1 - (cd.2 : ℚ) / 256) := by
  refine ⟨?_, ?_, ?_⟩
  · intro denseOk
    simp [binaryCascadeStage2]
  · intro cands hne
    have hie : cands.isEmpty = false := by
      cases cands with
      | nil => exact absurd rfl hne
      | cons c cs => rfl
    simp [binaryCascadeStage2, hie]
  · intro cands r hr
    have hr1 : r ∈ dedupByPath (cands.filterMap fun cd =>
        (lookup cd.1).map fun info =>
          SearchResult.mk info.path (hammingScore cd.2)) :=
      (sortDesc_perm _ _).mem_iff.mp hr
    have hr2 := (dedupByPath_inv _).mem r hr1
    rcases List.mem_filterMap.mp hr2 with ⟨cd, hcd, heq⟩
    rcases Option.map_eq_some'.mp heq with ⟨info, hlk, hf⟩
    refine ⟨cd, hcd, ⟨info, hlk, ?_⟩, ?_⟩
    · rw [← hf]
    · rw [← hf]
      rfl

/-- Witness for C6: one candidate `(chunk 7, Hamming distance 128)` with no
dense embedding yields a single result scored `1 - 128/256 = 1/2`; an empty
candidate set falls back to the hybrid cascade. -/
theorem binary_cascade_fallback_paths_witness :
    binaryCascadeStage2 [] 10 5 true (fun _ => none) [] = .hybridFallback ∧
    binaryCascadeStage2 [(7, 128)] 10 5 false
      (fun i => if i = 7 then some (ChunkInfo.mk "a.py" "code") else none) [] =
      .hammingOnly [SearchResult.mk "a.py" (1/2)] ∧
    ∃ cd ∈ [((7 : Nat), (128 : Nat))],
      (∃ info, (if cd.1 = 7 then some (ChunkInfo.mk "a.py" "code") else none) =
        some info ∧ "a.py" = info.path) ∧
      (1/2 : ℚ) = 1 - (cd.2 : ℚ) / 256 := by
  refine ⟨?_, ?_, ?_⟩
  · exact (binary_cascade_fallback_paths 10 5 (fun _ => none) []).1 true
  · have h := (binary_cascade_fallback_paths 10 5
      (fun i => if i = 7 then some (ChunkInfo.mk "a.py" "code") else none)
      []).2.1 [(7, 128)] (by decide)
    rw [h]
    simp [buildResultsFromCandidates, sortByDistance, sortDesc, insertDesc,
      dedupByPath, updateByPath, hammingScore]
    norm_num
  · have hmem : SearchResult.mk "a.py" (1/2) ∈ buildResultsFromCandidates
        (fun i => if i = 7 then some (ChunkInfo.mk "a.py" "code") else none)
        [(7, 128)] := by
      simp [buildResultsFromCandidates, sortDesc, insertDesc,
        dedupByPath, updateByPath, hammingScore]
      norm_num
    exact (binary_cascade_fallback_paths 10 5
      (fun i => if i = 7 then some (ChunkInfo.mk "a.py" "code") else none)
      []).2.2 [(7, 128)] (SearchResult.mk "a.py" (1/2)) hmem

/-! ### Helper lemmas: directory-index walker -/

/-- A predicate preserved by each fold step is preserved by the fold. -/
theorem foldl_preserve {σ β : Type _} {f : σ → β → σ} (P : σ → Prop)
    (h : ∀ st q, P st → P (f st q)) :
    ∀ (l : List β) (st : σ), P st → P (l.foldl f st) := by
  intro l
  induction l with
  | nil => intro st hst; exact hst
  | cons q l ih => intro st hst; exact ih _ (h st q hst)

/-- Every resolved path is within any depth of itself. -/
theorem withinDepth_self (t : IndexTree) :
    ∀ (d : Nat) (p : Nat), withinDepth t d p (t.resolve p) := by
  intro d p
  cases d with
  | zero => rfl
  | succ d => exact Or.inl rfl

/-- Walker invariant: the collected list has no duplicates and is contained
in the visited set. -/
def WalkInv (st : WalkState) : Prop :=
  st.collected.Nodup ∧ ∀ x ∈ st.collected, x ∈ st.visited

/-- The walker preserves the no-duplicates invariant: each resolved path is
collected at most once thanks to the visited set. -/
theorem collectGo_inv (t : IndexTree) (depth : Int) :
    ∀ fuel p cd st, WalkInv st → WalkInv (collectGo t depth fuel p cd st) := by
  intro fuel
  induction fuel with
  | zero => intro p cd st h; exact h
  | succ fuel ih =>
    intro p cd st h
    rw [collectGo]
    by_cases hv : t.resolve p ∈ st.visited
    · rw [if_pos hv]; exact h
    · rw [if_neg hv]
      by_cases he : t.existsIdx (t.resolve p)
      · rw [if_pos he]
        have hst2 : WalkInv ⟨t.resolve p :: st.visited,
            st.collected ++ [t.resolve p]⟩ := by
          constructor
          · rw [List.nodup_append]
            exact ⟨h.1, List.nodup_singleton _,
              fun x hx hx1 => hv (by
                rw [List.mem_singleton.mp hx1] at hx
                exact h.2 _ hx)⟩
          · intro x hx
            rcases List.mem_append.mp hx with hx | hx
            · exact List.mem_cons_of_mem _ (h.2 x hx)
            · rw [List.mem_singleton.mp hx]
              exact List.mem_cons_self _ _
        by_cases hg : 0 ≤ depth ∧ depth ≤ (cd : Int)
        · rw [if_pos hg]; exact hst2
        · rw [if_neg hg]
          exact foldl_preserve WalkInv (fun s q hs => ih q (cd + 1) s hs)
            _ _ hst2
      · rw [if_neg he]
        exact ⟨h.1, fun x hx => List.mem_cons_of_mem _ (h.2 x hx)⟩

/-- Soundness of the depth limit: with `depth ≥ 0`, everything newly
collected from node `p` at current depth `cd` is within `depth - cd` edges
of `p`. -/
theorem collectGo_sound (t : IndexTree) (depth : Int) (hd : 0 ≤ depth) :
    ∀ fuel p cd st, ∀ q ∈ (collectGo t depth fuel p cd st).collected,
      q ∈ st.collected ∨ withinDepth t (depth - cd).toNat p q := by
  intro fuel
  induction fuel with
  | zero => intro p cd st q hq; exact Or.inl hq
  | succ fuel ih =>
    intro p cd st q hq
    rw [collectGo] at hq
    by_cases hv : t.resolve p ∈ st.visited
    · rw [if_pos hv] at hq; exact Or.inl hq
    · rw [if_neg hv] at hq
      by_cases he : t.existsIdx (t.resolve p)
      · rw [if_pos he] at hq
        by_cases hg : 0 ≤ depth ∧ depth ≤ (cd : Int)
        · rw [if_pos hg] at hq
          rcases List.mem_append.mp hq with hq | hq
          · exact Or.inl hq
          · right
            rw [List.mem_singleton.mp hq]
            exact withinDepth_self t _ p
        · rw [if_neg hg] at hq
          have hcd : (cd : Int) < depth := by
            rcases not_and_or.mp hg with h1 | h1
            · exact absurd hd h1
            · omega
          have haux : ∀ (l : List Nat) (st0 : WalkState),
              q ∈ (l.foldl
                (fun s q' => collectGo t depth fuel q' (cd + 1) s) st0).collected →
              q ∈ st0.collected ∨
                ∃ s ∈ l, withinDepth t (depth - (cd + 1)).toNat s q := by
            intro l
            induction l with
            | nil => intro st0 hq0; exact Or.inl hq0
            | cons s l ihl =>
              intro st0 hq0
              rcases ihl _ hq0 with hq1 | ⟨s', hs', hw⟩
              · rcases ih s (cd + 1) st0 q hq1 with hq2 | hw
                · exact Or.inl hq2
                · exact Or.inr ⟨s, List.mem_cons_self _ _, hw⟩
              · exact Or.inr ⟨s', List.mem_cons_of_mem _ hs', hw⟩
          rcases haux _ _ hq with hq1 | ⟨s, hs, hw⟩
          · rcases List.mem_append.mp hq1 with hq2 | hq2
            · exact Or.inl hq2
            · right
              rw [List.mem_singleton.mp hq2]
              exact withinDepth_self t _ p
          · right
            have hm : (depth - cd).toNat = (depth - (cd + 1)).toNat + 1 := by
              omega
            rw [hm]
            exact Or.inr ⟨s, hs, hw⟩
      · rw [if_neg he] at hq
        exact Or.inl hq

/-- With `depth = -1`, the depth-limit guard never fires: each level of the
walker coincides with the guard-free unbounded walker. -/
theorem collectGo_neg_one (t : IndexTree) :
    ∀ fuel p cd st, collectGo t (-1) fuel p cd st = collectGoU t fuel p st := by
  intro fuel
  induction fuel with
  | zero => intro p cd st; rfl
  | succ fuel ih =>
    intro p cd st
    rw [collectGo, collectGoU]
    have hg : ¬(0 ≤ (-1 : Int) ∧ (-1 : Int) ≤ (cd : Int)) := by omega
    have hstep : (fun s q => collectGo t (-1) fuel q (cd + 1) s) =
        fun s q => collectGoU t fuel q s :=
      funext fun s => funext fun q => ih q (cd + 1) s
    rw [if_neg hg, hstep]

/-- C8. The descendant collector: with `d ≥ 0` every collected index is
within `d` subdirectory-link edges of the start; `d = 0` collects only the
(resolved, existing) starting index; `d = -1` performs the unbounded
traversal (the depth guard never cuts); and no resolved index path is ever
collected twice, thanks to the visited set. -/
theorem collect_index_paths_spec (t : IndexTree) (start : Nat) (fuel : Nat) :
    (∀ depth : Int, 0 ≤ depth → ∀ q ∈ collectIndexPaths t start depth fuel,
      withinDepth t depth.toNat start q) ∧
    (collectIndexPaths t start 0 (fuel + 1) =
      if t.existsIdx (t.resolve start) then [t.resolve start] else []) ∧
    (∀ p cd st, collectGo t (-1) fuel p cd st = collectGoU t fuel p st) ∧
    (∀ depth : Int, (collectIndexPaths t start depth fuel).Nodup) := by
  refine ⟨?_, ?_, ?_, ?_⟩
  · intro depth hd q hq
    rcases collectGo_sound t depth hd fuel start 0 ⟨[], []⟩ q hq with h | h
    · exact absurd h (List.not_mem_nil q)
    · simpa using h
  · by_cases he : t.existsIdx (t.resolve start) <;>
      simp [collectIndexPaths, collectGo, he]
  · exact collectGo_neg_one t fuel
  · intro depth
    exact (collectGo_inv t depth fuel start 0 ⟨[], []⟩
      ⟨List.nodup_nil, by simp⟩).1

/-- Witness for C8: in the three-node chain `0 → 1 → 2` (identity resolve,
all indexes existing), a depth-1 walk collects exactly `[0, 1]`, each within
one edge of the start, and a depth-0 walk collects only `[0]`. -/
theorem collect_index_paths_spec_witness :
    withinDepth
      (IndexTree.mk (fun p => p) (fun _ => true)
        (fun n => if n = 0 then [1] else if n = 1 then [2] else []))
      1 0 1 ∧
    collectIndexPaths
      (IndexTree.mk (fun p => p) (fun _ => true)
        (fun n => if n = 0 then [1] else if n = 1 then [2] else []))
      0 0 5 = [0] := by
  constructor
  · refine (collect_index_paths_spec
      (IndexTree.mk (fun p => p) (fun _ => true)
        (fun n => if n = 0 then [1] else if n = 1 then [2] else []))
      0 6).1 1 (by omega) 1 ?_
    decide
  · have h := (collect_index_paths_spec
      (IndexTree.mk (fun p => p) (fun _ => true)
        (fun n => if n = 0 then [1] else if n = 1 then [2] else []))
      0 4).2.1
    rw [h]
    decide

/-! ### Helper lemmas: FloatVal arithmetic and weight totals -/

/-- Addition of finite values is rational addition. -/
theorem addF_val (a b : ℚ) : addF (.val a) (.val b) = .val (a + b) := rfl

/-- Division of finite values by a non-zero finite value is rational
division. -/
theorem divF_val (a : ℚ) {t : ℚ} (ht : t ≠ 0) :
    divF (.val a) (.val t) = .val (a / t) := by
  simp [divF, ht]

/-- Division by `1.0` is the identity on every float value. -/
theorem divF_one (x : FloatVal) : divF x (.val 1) = x := by
  cases x <;> simp [divF]

/-- A finite sum has finite summands. -/
theorem addF_val_inv {u v : FloatVal} {c : ℚ} (h : addF u v = .val c) :
    (∃ a, u = .val a) ∧ (∃ b, v = .val b) := by
  cases u <;> cases v <;> simp [addF] at h ⊢

/-- Weight totals over all-finite mappings are rational sums. -/
theorem totalWeight_go (ws : List (String × FloatVal)) :
    ∀ a : ℚ, (∀ p ∈ ws, ∃ b, p.2 = .val b) →
      ws.foldl (fun acc p => addF acc p.2) (.val a) =
        .val (a + (ws.map (fun p => ratOf p.2)).sum) := by
  induction ws with
  | nil => intro a _; simp
  | cons x xs ih =>
    intro a h
    rcases h x (List.mem_cons_self _ _) with ⟨b, hb⟩
    have hxs : ∀ p ∈ xs, ∃ b, p.2 = .val b :=
      fun p hp => h p (List.mem_cons_of_mem _ hp)
    simp only [List.foldl_cons, hb, addF_val]
    rw [ih (a + b) hxs]
    simp [hb, ratOf, add_assoc]

/-- A finite total forces every entry of the mapping to be finite. -/
theorem totalWeight_finite_entries :
    ∀ (ws : List (String × FloatVal)) (acc : FloatVal) (q : ℚ),
      ws.foldl (fun acc p => addF acc p.2) acc = .val q →
      (∃ a, acc = .val a) ∧ ∀ p ∈ ws, ∃ b, p.2 = .val b := by
  intro ws
  induction ws with
  | nil => intro acc q h; exact ⟨⟨q, h⟩, by simp⟩
  | cons x xs ih =>
    intro acc q h
    rw [List.foldl_cons] at h
    rcases ih (addF acc x.2) q h with ⟨⟨c, hc⟩, hxs⟩
    rcases addF_val_inv hc with ⟨ha, hb⟩
    refine ⟨ha, ?_⟩
    intro p hp
    rcases List.mem_cons.mp hp with rfl | hp
    · exact hb
    · exact hxs p hp

/-- Summing after dividing each element is dividing the sum. -/
theorem list_sum_div (l : List ℚ) (q : ℚ) :
    (l.map (fun x => x / q)).sum = l.sum / q := by
  induction l with
  | nil => simp
  | cons x xs ih => simp [ih, add_div]

/-- The total of lifted rational weights is the rational sum. -/
theorem totalWeight_toFloat (wq : List (String × ℚ)) :
    totalWeight (toFloatWeights wq) = .val ((wq.map Prod.snd).sum) := by
  unfold totalWeight
  rw [totalWeight_go (toFloatWeights wq) 0
    (by
      intro p hp
      rcases List.mem_map.mp hp with ⟨x, _, hx⟩
      exact ⟨x.2, by rw [← hx]⟩)]
  have hmap : (toFloatWeights wq).map (fun p => ratOf p.2) = wq.map Prod.snd := by
    unfold toFloatWeights
    rw [List.map_map]
    rfl
  rw [hmap, zero_add]

/-- A mapping whose total is exactly `1.0` is a fixed point of
normalization. -/
theorem normalizeWeights_total_one {ws : List (String × FloatVal)}
    (h : totalWeight ws = .val 1) : normalizeWeights ws = ws := by
  unfold normalizeWeights
  rw [h]
  simp [isFiniteF, gtZeroF, divF_one]

/-- Weight lookup commutes with lifting rational weights. -/
theorem lookupWeight_toFloat (wq : List (String × ℚ)) (s : String) :
    lookupWeight (toFloatWeights wq) s = .val (lookupRat wq s) := by
  induction wq with
  | nil => rfl
  | cons x xs ih =>
    by_cases h : x.1 == s
    · simp [lookupWeight, lookupRat, toFloatWeights, List.find?_cons, h]
    · have h' : (x.1 == s) = false := by simpa using h
      simp only [lookupWeight, lookupRat, toFloatWeights, List.map_cons,
        List.find?_cons, h'] at ih ⊢
      exact ih

/-! ### Helper lemmas: RRF accumulation -/

/-- An absent path has no rank. -/
theorem rankFrom_none {p : String} :
    ∀ (l : List String) (r : Nat), p ∉ l → rankFrom l p r = none := by
  intro l
  induction l with
  | nil => intro r _; rfl
  | cons q qs ih =>
    intro r hp
    have hq : q ≠ p := fun he => hp (he ▸ List.mem_cons_self _ _)
    rw [rankFrom, if_neg hq]
    exact ih (r + 1) (fun hmem => hp (List.mem_cons_of_mem _ hmem))

/-- Ranks count from the starting index. -/
theorem rankFrom_ge {p : String} :
    ∀ (l : List String) (r0 r : Nat), rankFrom l p r0 = some r → r0 ≤ r := by
  intro l
  induction l with
  | nil => intro r0 r h; exact absurd h (by simp [rankFrom])
  | cons q qs ih =>
    intro r0 r h
    rw [rankFrom] at h
    by_cases hq : q = p
    · rw [if_pos hq] at h
      have := Option.some.inj h
      omega
    · rw [if_neg hq] at h
      have := ih (r0 + 1) r h
      omega

/-- The rank of the `i`-th element of a duplicate-free list. -/
theorem rankFrom_get :
    ∀ (l : List String), l.Nodup → ∀ (i : Fin l.length) (r0 : Nat),
      rankFrom l (l.get i) r0 = some (r0 + i) := by
  intro l
  induction l with
  | nil => intro _ i; exact absurd i.2 (by simp)
  | cons q qs ih =>
    intro hnd i r0
    rcases List.nodup_cons.mp hnd with ⟨hq, hqs⟩
    rcases i with ⟨iv, hi⟩
    cases iv with
    | zero => simp [rankFrom]
    | succ j =>
      have hj : j < qs.length := by simpa using hi
      have hne : q ≠ qs.get ⟨j, hj⟩ :=
        fun he => hq (he ▸ List.get_mem qs j hj)
      have hget : (q :: qs).get ⟨j + 1, hi⟩ = qs.get ⟨j, hj⟩ := rfl
      rw [hget, rankFrom, if_neg hne, ih hqs ⟨j, hj⟩ (r0 + 1)]
      show some (r0 + 1 + j) = some (r0 + (j + 1))
      congr 1
      omega

/-- Deduplication: the output is duplicate-free, avoids the seen set, and
is contained in the input. -/
theorem dedupFirst_spec :
    ∀ (l seen : List String),
      (dedupFirst seen l).Nodup ∧
      ∀ p ∈ dedupFirst seen l, p ∉ seen ∧ p ∈ l := by
  intro l
  induction l with
  | nil => intro seen; exact ⟨List.nodup_nil, by simp [dedupFirst]⟩
  | cons q qs ih =>
    intro seen
    rw [dedupFirst]
    by_cases hq : q ∈ seen
    · rw [if_pos hq]
      refine ⟨(ih seen).1, ?_⟩
      intro p hp
      rcases (ih seen).2 p hp with ⟨h1, h2⟩
      exact ⟨h1, List.mem_cons_of_mem _ h2⟩
    · rw [if_neg hq]
      refine ⟨?_, ?_⟩
      · rw [List.nodup_cons]
        refine ⟨?_, (ih (q :: seen)).1⟩
        intro hmem
        exact ((ih (q :: seen)).2 q hmem).1 (List.mem_cons_self _ _)
      · intro p hp
        rcases List.mem_cons.mp hp with rfl | hp
        · exact ⟨hq, List.mem_cons_self _ _⟩
        · rcases (ih (q :: seen)).2 p hp with ⟨h1, h2⟩
          exact ⟨fun hs => h1 (List.mem_cons_of_mem _ hs),
            List.mem_cons_of_mem _ h2⟩

/-- The deduplicated ranked paths are duplicate-free. -/
theorem dedupKeepFirst_nodup (paths : List String) :
    (dedupKeepFirst paths).Nodup :=
  (dedupFirst_spec paths []).1

/-- Accumulated score of a finite-weight source: each path in the ranked
list receives exactly one contribution `w / (k + rank)`. -/
theorem accumulateRanked_score {w k : ℚ} (hk : 0 ≤ k) :
    ∀ (l : List String) (acc : RRFAcc) (r0 : Nat), l.Nodup → 1 ≤ r0 →
      ∀ p, (accumulateRanked (.val w) k acc r0 l).score p =
        match rankFrom l p r0 with
        | some r => addF (acc.score p) (.val (w / (k + (r : ℚ))))
        | none => acc.score p := by
  intro l
  induction l with
  | nil => intro acc r0 _ _ p; rfl
  | cons q qs ih =>
    intro acc r0 hnd hr0 p
    rcases List.nodup_cons.mp hnd with ⟨hq, hqs⟩
    have hkr : k + (r0 : ℚ) ≠ 0 := by
      have h1 : (1 : ℚ) ≤ (r0 : ℚ) := by exact_mod_cast hr0
      nlinarith
    rw [accumulateRanked, divF_val w hkr,
      ih (addContribution acc q (.val (w / (k + (r0 : ℚ))))) (r0 + 1) hqs
        (by omega) p]
    by_cases hqp : q = p
    · subst hqp
      rw [rankFrom_none qs (r0 + 1) hq]
      rw [rankFrom, if_pos rfl]
      simp [addContribution]
    · rw [rankFrom, if_neg hqp]
      have hscore : (addContribution acc q (.val (w / (k + (r0 : ℚ))))).score p =
          acc.score p := by
        have hpq : ¬ p = q := fun he => hqp he.symm
        simp [addContribution, hpq]
      cases hr : rankFrom qs p (r0 + 1) with
      | none => simp [hscore]
      | some r => simp [hscore]

/-- Accumulated keys: paths disjoint from the existing keys are appended in
order. -/
theorem accumulateRanked_keys (w : FloatVal) (k : ℚ) :
    ∀ (l : List String) (acc : RRFAcc) (r0 : Nat),
      (∀ p ∈ l, p ∉ acc.keys) → l.Nodup →
      (accumulateRanked w k acc r0 l).keys = acc.keys ++ l := by
  intro l
  induction l with
  | nil => intro acc r0 _ _; simp [accumulateRanked]
  | cons q qs ih =>
    intro acc r0 hdisj hnd
    rcases List.nodup_cons.mp hnd with ⟨hq, hqs⟩
    have hqk : q ∉ acc.keys := hdisj q (List.mem_cons_self _ _)
    rw [accumulateRanked]
    have hkeys : (addContribution acc q (divF w (.val (k + (r0 : ℚ))))).keys =
        acc.keys ++ [q] := by
      simp [addContribution, hqk]
    rw [ih _ (r0 + 1)
      (by
        intro p hp
        rw [hkeys]
        intro hmem
        rcases List.mem_append.mp hmem with hmem | hmem
        · exact hdisj p (List.mem_cons_of_mem _ hp) hmem
        · exact hq (List.mem_singleton.mp hmem ▸ hp)) hqs]
    rw [hkeys, List.append_assoc]
    rfl

/-- The score field of the RRF fold, in closed form: starting from any
accumulator realizing the rational score `g`, the fold adds the spec's
per-source contributions. -/
theorem rrfRawScores_go (wq : List (String × ℚ)) (k : ℚ) (hk : 0 ≤ k) :
    ∀ (rm : List (String × List String)) (acc : RRFAcc) (g : String → ℚ),
      (∀ q, acc.score q = .val (g q)) →
      ∀ p, (rm.foldl (fun acc sp =>
          if lookupWeight (toFloatWeights wq) sp.1 = .val 0 then acc
          else accumulateSource acc (lookupWeight (toFloatWeights wq) sp.1)
            k sp.2) acc).score p =
        .val (g p + (rm.map (rrfContribution wq k p)).sum) := by
  intro rm
  induction rm with
  | nil => intro acc g hg p; simp [hg p]
  | cons sp rm ih =>
    intro acc g hg p
    rw [List.foldl_cons]
    by_cases hw : lookupRat wq sp.1 = 0
    · rw [if_pos (by rw [lookupWeight_toFloat, hw])]
      rw [ih acc g hg p]
      have hc : rrfContribution wq k p sp = 0 := by
        unfold rrfContribution
        cases rankOf sp.2 p with
        | none => rfl
        | some r => simp [hw]
      simp [hc]
    · rw [if_neg (by
        rw [lookupWeight_toFloat]
        intro hcon
        exact hw (by
          have := congrArg ratOf hcon
          simpa [ratOf] using this))]
      rw [lookupWeight_toFloat]
      have hacc : ∀ q, (accumulateSource acc (.val (lookupRat wq sp.1)) k
          sp.2).score q = .val (g q + rrfContribution wq k q sp) := by
        intro q
        unfold accumulateSource
        rw [accumulateRanked_score hk (dedupKeepFirst sp.2) acc 1
          (dedupKeepFirst_nodup sp.2) (le_refl 1) q]
        unfold rrfContribution rankOf
        cases hr : rankFrom (dedupKeepFirst sp.2) q 1 with
        | none => simp [hg q]
        | some r => simp [hg q, addF_val]
      rw [ih _ _ hacc p]
      simp [add_assoc]

/-- Single-source accumulation: the accumulator is exactly the deduplicated
ranked paths with scores `w / (k + rank)`. -/
theorem rrf_single_source_acc (wq : List (String × ℚ)) (k : ℚ)
    (s : String) (paths : List String) (hw : lookupRat wq s ≠ 0) :
    rrfRawScores [(s, paths)] (toFloatWeights wq) k =
      accumulateSource emptyAcc (.val (lookupRat wq s)) k paths := by
  unfold rrfRawScores
  simp only [List.foldl_cons, List.foldl_nil, lookupWeight_toFloat]
  rw [if_neg (fun hcon => hw (FloatVal.val.inj hcon))]

/-- Single-source head: with a positive weight, the first-ranked path heads
the fused output with score `w / (k + 1)`. -/
theorem rrf_single_source_head (wq : List (String × ℚ)) (k : ℚ) (hk : 0 ≤ k)
    (s x : String) (rest : List String) (hw : 0 < lookupRat wq s) :
    (rrfWithWeights [(s, x :: rest)] (toFloatWeights wq) k).head? =
      some (x, .val (lookupRat wq s / (k + 1))) := by
  have hwne : lookupRat wq s ≠ 0 := ne_of_gt hw
  have hacc := rrf_single_source_acc wq k s (x :: rest) hwne
  have hnd := dedupKeepFirst_nodup (x :: rest)
  have hkeys : (accumulateSource emptyAcc (.val (lookupRat wq s)) k
      (x :: rest)).keys = dedupKeepFirst (x :: rest) := by
    unfold accumulateSource
    rw [accumulateRanked_keys (.val (lookupRat wq s)) k
      (dedupKeepFirst (x :: rest)) emptyAcc 1
      (by intro p _; simp [emptyAcc]) hnd]
    simp [emptyAcc]
  have hscore : ∀ (i : Fin (dedupKeepFirst (x :: rest)).length),
      (accumulateSource emptyAcc (.val (lookupRat wq s)) k
        (x :: rest)).score ((dedupKeepFirst (x :: rest)).get i) =
        .val (lookupRat wq s / (k + ((1 + (i : ℕ) : ℕ) : ℚ))) := by
    intro i
    unfold accumulateSource
    rw [accumulateRanked_score hk (dedupKeepFirst (x :: rest)) emptyAcc 1
      hnd (le_refl 1)]
    rw [rankFrom_get (dedupKeepFirst (x :: rest)) hnd i 1]
    simp [emptyAcc, addF_val]
  unfold rrfWithWeights
  rw [hacc, hkeys]
  have hpair : ((dedupKeepFirst (x :: rest)).map fun p =>
      (p, (accumulateSource emptyAcc (.val (lookupRat wq s)) k
        (x :: rest)).score p)).Pairwise
      (fun a b => (fun a b => fltF a.2 b.2) b a = true) := by
    rw [List.pairwise_iff_get]
    intro i j hij
    have hlen : ((dedupKeepFirst (x :: rest)).map fun p =>
        (p, (accumulateSource emptyAcc (.val (lookupRat wq s)) k
          (x :: rest)).score p)).length =
        (dedupKeepFirst (x :: rest)).length := List.length_map _ _
    have hi : (i : ℕ) < (dedupKeepFirst (x :: rest)).length := by
      rw [← hlen]; exact i.2
    have hj : (j : ℕ) < (dedupKeepFirst (x :: rest)).length := by
      rw [← hlen]; exact j.2
    have hgi : (((dedupKeepFirst (x :: rest)).map fun p =>
        (p, (accumulateSource emptyAcc (.val (lookupRat wq s)) k
          (x :: rest)).score p)).get i) =
        ((dedupKeepFirst (x :: rest)).get ⟨i, hi⟩,
          (accumulateSource emptyAcc (.val (lookupRat wq s)) k
            (x :: rest)).score ((dedupKeepFirst (x :: rest)).get ⟨i, hi⟩)) := by
      simp [List.get_eq_getElem, List.getElem_map]
    have hgj : (((dedupKeepFirst (x :: rest)).map fun p =>
        (p, (accumulateSource emptyAcc (.val (lookupRat wq s)) k
          (x :: rest)).score p)).get j) =
        ((dedupKeepFirst (x :: rest)).get ⟨j, hj⟩,
          (accumulateSource emptyAcc (.val (lookupRat wq s)) k
            (x :: rest)).score ((dedupKeepFirst (x :: rest)).get ⟨j, hj⟩)) := by
      simp [List.get_eq_getElem, List.getElem_map]
    rw [hgi, hgj]
    show fltF ((accumulateSource emptyAcc (.val (lookupRat wq s)) k
        (x :: rest)).score ((dedupKeepFirst (x :: rest)).get ⟨j, hj⟩))
      ((accumulateSource emptyAcc (.val (lookupRat wq s)) k
        (x :: rest)).score ((dedupKeepFirst (x :: rest)).get ⟨i, hi⟩)) = true
    rw [hscore ⟨j, hj⟩, hscore ⟨i, hi⟩]
    show decide (lookupRat wq s / (k + ((1 + (j : ℕ) : ℕ) : ℚ)) <
      lookupRat wq s / (k + ((1 + (i : ℕ) : ℕ) : ℚ))) = true
    rw [decide_eq_true_iff]
    have hio : (0 : ℚ) < k + ((1 + (i : ℕ) : ℕ) : ℚ) := by
      push_cast
      have : ((i : ℕ) : ℚ) ≥ 0 := Nat.cast_nonneg _
      linarith
    have hlt : k + ((1 + (i : ℕ) : ℕ) : ℚ) < k + ((1 + (j : ℕ) : ℕ) : ℚ) := by
      push_cast
      have : ((i : ℕ) : ℚ) < ((j : ℕ) : ℚ) := by exact_mod_cast hij
      linarith
    exact div_lt_div_of_pos_left hw hio hlt
  rw [sortDesc_eq_self hpair]
  have hl : dedupKeepFirst (x :: rest) = x :: dedupFirst [x] rest := by
    simp [dedupKeepFirst, dedupFirst]
  rw [hl]
  have hsx : (accumulateSource emptyAcc (.val (lookupRat wq s)) k
      (x :: rest)).score x = .val (lookupRat wq s / (k + 1)) := by
    unfold accumulateSource
    rw [accumulateRanked_score hk (dedupKeepFirst (x :: rest)) emptyAcc 1
      hnd (le_refl 1)]
    rw [hl, rankFrom, if_pos rfl]
    simp [emptyAcc, addF_val]
  simp [hsx]

/-- C2. Reciprocal-rank fusion (modelled from the spec, `ranking.py` not
being among the provided sources) assigns every path the accumulated score
`Σ_s w_s / (k + r)` over the sources, `r` the 1-based rank of the path in
source `s` (0 for sources not listing the path; a weight-0 source
contributes nothing); normalized weights are used verbatim (normalization
is a fixed point on them); and fusing a single source `{s : [x, ...]}` with
normalized weight `w > 0` for `s` gives the first-ranked result the score
`w / (k + 1)`. -/
theorem rrf_score_formula (wq : List (String × ℚ)) (k : ℚ) (hk : 0 ≤ k)
    (hnorm : (wq.map Prod.snd).sum = 1) :
    (∀ (rm : List (String × List String)) (p : String),
      (rrfRawScores rm (toFloatWeights wq) k).score p =
        .val ((rm.map (rrfContribution wq k p)).sum)) ∧
    (∀ rm, reciprocalRankFusion rm (toFloatWeights wq) k =
      rrfWithWeights rm (toFloatWeights wq) k) ∧
    (∀ (s x : String) (rest : List String), 0 < lookupRat wq s →
      (reciprocalRankFusion [(s, x :: rest)] (toFloatWeights wq) k).head? =
        some (x, .val (lookupRat wq s / (k + 1)))) := by
  have hfix : normalizeWeights (toFloatWeights wq) = toFloatWeights wq := by
    apply normalizeWeights_total_one
    rw [totalWeight_toFloat, hnorm]
  refine ⟨?_, ?_, ?_⟩
  · intro rm p
    unfold rrfRawScores
    rw [rrfRawScores_go wq k hk rm emptyAcc (fun _ => 0) (fun _ => rfl) p]
    simp
  · intro rm
    unfold reciprocalRankFusion
    rw [hfix]
  · intro s x rest hw
    unfold reciprocalRankFusion
    rw [hfix]
    exact rrf_single_source_head wq k hk s x rest hw

/-- Witness for C2: weights `{exact: 1}` (already normalized, sum 1) and
`k = 60`: fusing the single source `{exact: [a.py, b.py]}` puts `a.py`
first with score `1 / 61`, and the accumulated-score formula evaluates on
that map. -/
theorem rrf_score_formula_witness :
    (reciprocalRankFusion [("exact", ["a.py", "b.py"])]
        (toFloatWeights [("exact", 1)]) 60).head? =
      some ("a.py", .val (1 / 61)) ∧
    (rrfRawScores [("exact", ["a.py", "b.py"])]
        (toFloatWeights [("exact", 1)]) 60).score "b.py" =
      .val (([("exact", ["a.py", "b.py"])].map
        (rrfContribution [("exact", 1)] 60 "b.py")).sum) := by
  constructor
  · have h := (rrf_score_formula [("exact", 1)] 60 (by norm_num)
      (by norm_num)).2.2 "exact" "a.py" ["b.py"]
      (by norm_num [lookupRat, List.find?])
    refine h.trans ?_
    simp [lookupRat, List.find?]
    norm_num
  · exact (rrf_score_formula [("exact", 1)] 60 (by norm_num)
      (by norm_num)).1 [("exact", ["a.py", "b.py"])] "b.py"

/-- C3. Weight normalization (modelled from the spec): when the total is
NaN, ±∞, zero or negative the input mapping is returned unchanged — no
division happens, the (total) function raises nothing, and fusion proceeds
with those weights verbatim; when the total is a finite positive value each
weight is divided by the total and the normalized weights sum to 1. -/
theorem normalize_weights_guard (ws : List (String × FloatVal)) :
    ((totalWeight ws = .nan ∨ totalWeight ws = .inf ∨ totalWeight ws = .ninf ∨
        (∃ q, totalWeight ws = .val q ∧ q ≤ 0)) →
      normalizeWeights ws = ws ∧
      ∀ rm k, reciprocalRankFusion rm ws k = rrfWithWeights rm ws k) ∧
    (∀ q : ℚ, totalWeight ws = .val q → 0 < q →
      normalizeWeights ws = ws.map (fun p => (p.1, divF p.2 (.val q))) ∧
      totalWeight (normalizeWeights ws) = .val 1) := by
  constructor
  · intro h
    have hguard : (isFiniteF (totalWeight ws) && gtZeroF (totalWeight ws)) =
        false := by
      rcases h with h | h | h | ⟨q, h, hq⟩ <;> rw [h] <;>
        simp [isFiniteF, gtZeroF]
      exact hq
    have hnw : normalizeWeights ws = ws := by
      unfold normalizeWeights
      rw [hguard]
      rfl
    exact ⟨hnw, fun rm k => by unfold reciprocalRankFusion; rw [hnw]⟩
  · intro q hq hqpos
    have hguard : (isFiniteF (totalWeight ws) && gtZeroF (totalWeight ws)) =
        true := by
      rw [hq]
      simp [isFiniteF, gtZeroF, hqpos]
    have hmap : normalizeWeights ws =
        ws.map (fun p => (p.1, divF p.2 (.val q))) := by
      unfold normalizeWeights
      rw [hguard, if_pos rfl, hq]
    refine ⟨hmap, ?_⟩
    have hfin : ∀ p ∈ ws, ∃ b, p.2 = .val b :=
      (totalWeight_finite_entries ws (.val 0) q hq).2
    have hqne : q ≠ 0 := ne_of_gt hqpos
    have hsum : (ws.map (fun p => ratOf p.2)).sum = q := by
      have := totalWeight_go ws 0 hfin
      rw [show ws.foldl (fun acc p => addF acc p.2) (.val 0) =
        totalWeight ws from rfl, hq] at this
      have := FloatVal.val.inj this
      linarith
    rw [hmap]
    unfold totalWeight
    rw [totalWeight_go (ws.map fun p => (p.1, divF p.2 (.val q))) 0
      (by
        intro p hp
        rcases List.mem_map.mp hp with ⟨y, hy, hyp⟩
        rcases hfin y hy with ⟨b, hb⟩
        exact ⟨b / q, by rw [← hyp]; simp [hb, divF_val b hqne]⟩)]
    have hcomp : (ws.map fun p => (p.1, divF p.2 (.val q))).map
        (fun p => ratOf p.2) = ws.map (fun p => ratOf p.2 / q) := by
      rw [List.map_map]
      refine List.map_congr_left ?_
      intro y hy
      rcases hfin y hy with ⟨b, hb⟩
      simp [hb, divF_val b hqne, ratOf]
    rw [hcomp]
    have hdiv : ws.map (fun p => ratOf p.2 / q) =
        (ws.map fun p => ratOf p.2).map (fun z => z / q) := by
      rw [List.map_map]
      rfl
    rw [hdiv, list_sum_div, hsum, zero_add, div_self hqne]

/-- Witness for C3: a NaN total (`{exact: NaN}`) passes the weights through
unchanged and fusion uses them verbatim; the finite positive total
`{exact: 2, fuzzy: 1}` is normalized to `{exact: 2/3, fuzzy: 1/3}`, which
sums to 1. -/
theorem normalize_weights_guard_witness :
    normalizeWeights [("exact", FloatVal.nan)] = [("exact", FloatVal.nan)] ∧
    reciprocalRankFusion [] [("exact", FloatVal.nan)] 60 =
      rrfWithWeights [] [("exact", FloatVal.nan)] 60 ∧
    normalizeWeights [("exact", .val 2), ("fuzzy", .val 1)] =
      [("exact", .val (2/3)), ("fuzzy", .val (1/3))] ∧
    totalWeight (normalizeWeights [("exact", .val 2), ("fuzzy", .val 1)]) =
      .val 1 := by
  have hnan : totalWeight [("exact", FloatVal.nan)] = FloatVal.nan := rfl
  have h1 := (normalize_weights_guard [("exact", FloatVal.nan)]).1
    (Or.inl hnan)
  have htot : totalWeight [("exact", FloatVal.val 2), ("fuzzy", .val 1)] =
      .val 3 := by
    show addF (addF (.val 0) (.val 2)) (.val 1) = .val 3
    rw [addF_val, addF_val]
    norm_num
  have h2 := (normalize_weights_guard
    [("exact", FloatVal.val 2), ("fuzzy", .val 1)]).2 3 htot (by norm_num)
  refine ⟨h1.1, h1.2 [] 60, ?_, h2.2⟩
  rw [h2.1]
  simp [divF_val]

/-- A retryable status (429 or 5xx) is at least 400. -/
theorem shouldRetryStatus_ge_400 {s : Nat} (h : shouldRetryStatus s = true) :
    400 ≤ s := by
  simp only [shouldRetryStatus, Bool.or_eq_true, beq_iff_eq, Bool.and_eq_true,
    decide_eq_true_eq] at h
  omega

/-- A retryable status is neither 401 nor 403. -/
theorem shouldRetryStatus_ne_auth {s : Nat} (h : shouldRetryStatus s = true) :
    s ≠ 401 ∧ s ≠ 403 := by
  simp only [shouldRetryStatus, Bool.or_eq_true, beq_iff_eq, Bool.and_eq_true,
    decide_eq_true_eq] at h
  omega

/-- When every attempt returns a retryable status, the loop consumes all of
its fuel and raises on the final attempt. -/
theorem requestGo_all_retry (m : Nat) (resp : Nat → Nat) (body : Nat → String)
    (h : ∀ a, shouldRetryStatus (resp a) = true) :
    ∀ fuel attempt, attempt + fuel = m + 1 → attempt ≤ m →
      requestGo m resp body fuel attempt =
        .httpError (resp m) (truncateBody (body m)) := by
  intro fuel
  induction fuel with
  | zero => intro attempt h1 h2; omega
  | succ f ih =>
    intro attempt h1 h2
    have hge := shouldRetryStatus_ge_400 (h attempt)
    have hne := shouldRetryStatus_ne_auth (h attempt)
    by_cases hlt : attempt < m
    · rw [requestGo]
      simp only [hge, if_pos, h attempt, hlt, and_self, if_true]
      have := ih (attempt + 1) (by omega) (by omega)
      simpa using this
    · have ha : attempt = m := by omega
      have hf : f = 0 := by omega
      subst ha hf
      rw [requestGo]
      simp [hge, hlt, hne.1, hne.2]

/-- C7. HTTP response handling of the API reranker: the retryable set is
exactly 429 and the 5xx range; a 2xx/3xx response succeeds immediately;
401/403 raise immediately without retry; any other status ≥ 400 raises with
the response body truncated to 300 characters; an unbroken run of retryable
statuses is retried exactly `maxRetries` additional times before raising;
`max_retries` defaults to 3; the backoff sleep is capped at 8 s (base 0.5 s)
and honors a positive numeric `Retry-After`. -/
theorem api_reranker_retry_policy (m : Nat) (resp : Nat → Nat)
    (body : Nat → String) :
    (∀ s, shouldRetryStatus s = true ↔ (s = 429 ∨ (500 ≤ s ∧ s ≤ 599))) ∧
    (resp 0 < 400 → requestJson m resp body = .ok 0) ∧
    (resp 0 = 401 ∨ resp 0 = 403 →
      requestJson m resp body = .authError (resp 0)) ∧
    (400 ≤ resp 0 → shouldRetryStatus (resp 0) = false → resp 0 ≠ 401 →
      resp 0 ≠ 403 →
      requestJson m resp body = .httpError (resp 0) (truncateBody (body 0))) ∧
    ((∀ a, shouldRetryStatus (resp a) = true) →
      requestJson m resp body = .httpError (resp m) (truncateBody (body m))) ∧
    resolveMaxRetries none = 3 ∧
    (∀ (attempt : Nat) (jitter r : ℚ) (ra : Option ℚ),
      sleepBackoff (1/2) 8 attempt jitter ra ≤ 8 ∧
      (ra = some r → 0 < r →
        sleepBackoff (1/2) 8 attempt jitter ra = min r 8)) := by
  refine ⟨?_, ?_, ?_, ?_, ?_, rfl, ?_⟩
  · intro s
    simp only [shouldRetryStatus, Bool.or_eq_true, beq_iff_eq,
      Bool.and_eq_true, decide_eq_true_eq]
  · intro h
    rw [requestJson, requestGo]
    simp [Nat.not_le.mpr h]
  · intro h
    have h400 : 400 ≤ resp 0 := by rcases h with h | h <;> omega
    have hretry : shouldRetryStatus (resp 0) = false := by
      rcases h with h | h <;> rw [h] <;> rfl
    rw [requestJson, requestGo]
    simp [h400, hretry, h]
  · intro h400 hretry h401 h403
    rw [requestJson, requestGo]
    simp [h400, hretry, h401, h403]
  · intro h
    exact requestGo_all_retry m resp body h (m + 1) 0 (by omega) (by omega)
  · intro attempt jitter r ra
    constructor
    · rcases ra with _ | r'
      · simp [sleepBackoff]
      · by_cases hr : (0 : ℚ) < r'
        · simp [sleepBackoff, hr]
        · simp [sleepBackoff, hr]
    · intro hra hr
      subst hra
      simp [sleepBackoff, hr]

/-- Witness for C7: with `max_retries = 2`, an unbroken run of 503s raises
after the final attempt; a lone 401 raises immediately; a 404 raises with
its (short, hence untruncated) body; a 200 succeeds at once. -/
theorem api_reranker_retry_policy_witness :
    requestJson 2 (fun _ => 503) (fun _ => "overloaded") =
      .httpError 503 "overloaded" ∧
    requestJson 2 (fun _ => 401) (fun _ => "denied") = .authError 401 ∧
    requestJson 2 (fun _ => 404) (fun _ => "missing") =
      .httpError 404 "missing" ∧
    requestJson 2 (fun _ => 200) (fun _ => "") = .ok 0 := by
  refine ⟨?_, ?_, ?_, ?_⟩
  · have h := (api_reranker_retry_policy 2 (fun _ => 503)
      (fun _ => "overloaded")).2.2.2.2.1 (fun _ => rfl)
    exact h.trans (by decide)
  · exact (api_reranker_retry_policy 2 (fun _ => 401)
      (fun _ => "denied")).2.2.1 (Or.inl rfl)
  · have h := (api_reranker_retry_policy 2 (fun _ => 404)
      (fun _ => "missing")).2.2.2.1 (by decide) rfl (by decide) (by decide)
    exact h.trans (by decide)
  · exact (api_reranker_retry_policy 2 (fun _ => 200) (fun _ => "")).2.1
      (by decide)

/-- C1. The claim states that every vector-backend cosine-distance-to-score
conversion yields `max(0, 1 - d)`, never negative.  The dense-rerank cascade
(`chain_search.py:1453`) does clamp, but the centralized vector search
(`hybrid_search.py:688`) computes `1.0 - d` without the clamp: at cosine
distance `3/2` it produces the negative score `-(1/2)` where the claim
requires `0`. -/
theorem hybrid_vector_score_not_clamped :
    centralizedVectorScores [3/2] = [-(1/2)] ∧
    (-(1/2) : ℚ) < 0 ∧
    denseRerankScore (3/2) = 0 := by
  refine ⟨?_, by norm_num, ?_⟩ <;> simp [centralizedVectorScores, denseRerankScore] <;> norm_num

end CodexLens
